import Mathlib

/-!
Verification of the Strike-Girl VS Code extension core: the review/build
agent loops, the positional diff engine, review-mode staged writes, the
approval (apply/dismiss) flow, the shell-command stderr heuristic, and the
file-tree scanner.  Definitions are shallow embeddings of the TypeScript
sources (src/codeReviewer.ts, src/websiteBuilder.ts, src/chatbotPanel.ts).
-/

namespace StrikeGirl

/-! ## DiffEngine: CodeReviewer.generateDiff

The source splits both contents on newline, then runs an indexed loop
`for i in 0..max(oldLines.length, newLines.length)-1` pushing lines into
`removed` / `added` arrays.  `diffStep` is one iteration of that loop;
`generateDiff` is the whole function. -/

/-- One iteration of the indexed loop in `CodeReviewer.generateDiff`:
at index `i`, if `old` is exhausted the new line is added; if `new` is
exhausted the old line is removed; if both exist and differ, both are
recorded; if equal, nothing is emitted.  The `getD` default is never used
because each access is guarded by the length tests, mirroring the
bounds-safe array indexing of the source. -/
def diffStep (oldLines newLines : List String) (acc : List String × List String)
    (i : Nat) : List String × List String :=
  if oldLines.length ≤ i then (acc.1, acc.2 ++ [newLines.getD i ""])
  else if newLines.length ≤ i then (acc.1 ++ [oldLines.getD i ""], acc.2)
  else if oldLines.getD i "" ≠ newLines.getD i "" then
    (acc.1 ++ [oldLines.getD i ""], acc.2 ++ [newLines.getD i ""])
  else acc

/-- `CodeReviewer.generateDiff`: split on newline and run the indexed
positional walk, returning `(removed, added)`. -/
def generateDiff (oldContent newContent : String) : List String × List String :=
  let oldLines := oldContent.splitOn "\n"
  let newLines := newContent.splitOn "\n"
  let maxLength := max oldLines.length newLines.length
  (List.range maxLength).foldl (diffStep oldLines newLines) ([], [])

/-- The walk described by the spec for DiffEngine, phrased structurally:
consume both line lists in lockstep; a surplus old line is removed, a
surplus new line is added, a differing pair contributes to both lists, an
equal pair contributes nothing. -/
def diffSpec : List String → List String → List String × List String
  | [], [] => ([], [])
  | [], n :: ns => ((diffSpec [] ns).1, n :: (diffSpec [] ns).2)
  | o :: os, [] => (o :: (diffSpec os []).1, (diffSpec os []).2)
  | o :: os, n :: ns =>
    if o ≠ n then (o :: (diffSpec os ns).1, n :: (diffSpec os ns).2)
    else diffSpec os ns

lemma diffStep_succ (l₁ l₂ : List String) (acc : List String × List String) (i : Nat) :
    diffStep l₁ l₂ acc (i + 1) = diffStep l₁.tail l₂.tail acc i := by
  cases l₁ <;> cases l₂ <;>
    simp [diffStep, Nat.succ_le_succ_iff]

lemma foldl_diffStep :
    ∀ (os ns r a : List String),
      (List.range (max os.length ns.length)).foldl (diffStep os ns) (r, a)
        = (r ++ (diffSpec os ns).1, a ++ (diffSpec os ns).2) := by
  intro os
  induction os with
  | nil =>
    intro ns
    induction ns with
    | nil => intro r a; simp [diffSpec]
    | cons n ns ihn =>
      intro r a
      have hmax : max ([] : List String).length (n :: ns).length = ns.length + 1 := by
        simp
      have hshift : (fun (acc : List String × List String) (i : Nat) =>
          diffStep [] (n :: ns) acc (i + 1)) = diffStep [] ns := by
        funext acc i
        simpa using diffStep_succ [] (n :: ns) acc i
      have hzero : diffStep [] (n :: ns) (r, a) 0 = (r, a ++ [n]) := by
        simp [diffStep]
      rw [hmax, List.range_succ_eq_map, List.foldl_cons, List.foldl_map, hzero]
      have := ihn (r) (a ++ [n])
      simp only [List.length_nil, Nat.zero_max] at this
      rw [hshift, this]
      simp [diffSpec]
  | cons o os iho =>
    intro ns r a
    cases ns with
    | nil =>
      have hmax : max (o :: os).length ([] : List String).length = os.length + 1 := by
        simp
      have hshift : (fun (acc : List String × List String) (i : Nat) =>
          diffStep (o :: os) [] acc (i + 1)) = diffStep os [] := by
        funext acc i
        simpa using diffStep_succ (o :: os) [] acc i
      have hzero : diffStep (o :: os) [] (r, a) 0 = (r ++ [o], a) := by
        simp [diffStep]
      rw [hmax, List.range_succ_eq_map, List.foldl_cons, List.foldl_map, hzero]
      have := iho [] (r ++ [o]) a
      simp only [List.length_nil, Nat.max_zero] at this
      rw [hshift, this]
      simp [diffSpec]
    | cons n ns =>
      have hmax : max (o :: os).length (n :: ns).length = max os.length ns.length + 1 := by
        simp [Nat.succ_max_succ]
      have hshift : (fun (acc : List String × List String) (i : Nat) =>
          diffStep (o :: os) (n :: ns) acc (i + 1)) = diffStep os ns := by
        funext acc i
        simpa using diffStep_succ (o :: os) (n :: ns) acc i
      rw [hmax, List.range_succ_eq_map, List.foldl_cons, List.foldl_map, hshift]
      by_cases hon : o = n
      · have hzero : diffStep (o :: os) (n :: ns) (r, a) 0 = (r, a) := by
          simp [diffStep, hon]
        rw [hzero, iho ns r a]
        simp [diffSpec, hon]
      · have hzero : diffStep (o :: os) (n :: ns) (r, a) 0 = (r ++ [o], a ++ [n]) := by
          simp [diffStep, hon]
        rw [hzero, iho ns (r ++ [o]) (a ++ [n])]
        simp [diffSpec, hon]

lemma diffSpec_self : ∀ l : List String, diffSpec l l = ([], [])
  | [] => by simp [diffSpec]
  | x :: xs => by simp [diffSpec, diffSpec_self xs]

/-! ## Disk model

The on-disk project is an association list from absolute path to file
content; `lookupFS` is a read (`fs.readFileSync`), `setFile` a write
(`fs.writeFileSync`).  A path absent from the list is a missing file. -/

def lookupFS : List (String × String) → String → Option String
  | [], _ => none
  | (q, c) :: rest, p => if q = p then some c else lookupFS rest p

def setFile : List (String × String) → String → String → List (String × String)
  | [], p, c => [(p, c)]
  | (q, d) :: rest, p, c => if q = p then (p, c) :: rest else (q, d) :: setFile rest p c

lemma lookupFS_setFile_self :
    ∀ (fs : List (String × String)) (p c : String),
      lookupFS (setFile fs p c) p = some c
  | [], p, c => by simp [setFile, lookupFS]
  | (q, d) :: rest, p, c => by
    by_cases h : q = p
    · simp [setFile, lookupFS, h]
    · simp [setFile, lookupFS, h, lookupFS_setFile_self rest p c]

/-- `path.basename`: last slash-separated component (display-only field of a
code suggestion). -/
def basename (p : String) : String := (p.splitOn "/").getLastD p

/-! ## Review-mode staged writes: CodeReviewer.writeFile

In review mode `writeFile` never touches disk: it reads the current content
(empty string when the file is missing), short-circuits when the proposed
content is identical, and otherwise sends exactly one code suggestion
(the PendingEdit) to the chatbot panel carrying the positional diff.
The `relativePath` field of the suggestion is a display-only string for the
webview and is not modelled. -/

structure Suggestion where
  filePath : String
  fileName : String
  originalContent : String
  suggestedContent : String
  diff : List String × List String
deriving DecidableEq, Repr

structure WriteReviewResult where
  /-- disk state after the call -/
  fs : List (String × String)
  /-- the `{ success }` object returned to the model -/
  success : Bool
  /-- code suggestions handed to the chatbot panel (zero or one) -/
  suggestions : List Suggestion
deriving DecidableEq, Repr

/-- `CodeReviewer.writeFile` (review variant, src/unnamed/part_002): read the
current content, compare, and either no-op or stage exactly one suggestion.
The returned `fs` equals the input `fs` because the source performs no
`writeFileSync` on this path. -/
def writeFile (fs : List (String × String)) (filePath content : String) :
    WriteReviewResult :=
  let originalContent := (lookupFS fs filePath).getD ""
  if originalContent = content then
    ⟨fs, true, []⟩
  else
    ⟨fs, true,
      [⟨filePath, basename filePath, originalContent, content,
        generateDiff originalContent content⟩]⟩

/-! ## Approval flow: ChatbotPanel apply / dismiss

A staged suggestion lives as a card in the chatbot panel.  Accepting it
posts `applySuggestion`, and `ChatbotPanel._handleApplySuggestion` writes
`suggestedContent` verbatim to `filePath`; the card is then marked resolved.
Dismissing hides the card without any I/O.  Both resolutions remove the
pending record; neither affects other pending suggestions. -/

structure PanelState where
  fs : List (String × String)
  pending : List Suggestion
deriving DecidableEq, Repr

/-- Resolve a pending suggestion with "apply": `_handleApplySuggestion`
performs the deferred disk write and the record is retired. -/
def applySuggestion (st : PanelState) (s : Suggestion) : PanelState :=
  { fs := setFile st.fs s.filePath s.suggestedContent,
    pending := st.pending.erase s }

/-- Resolve a pending suggestion with "discard": the card is hidden; no
disk I/O happens. -/
def dismissSuggestion (st : PanelState) (s : Suggestion) : PanelState :=
  { st with pending := st.pending.erase s }

/-! ## Build-mode tool: WebsiteBuilder.executeCommand

The single build-mode tool either writes a file (when truthy `content` and
`filePath` arguments are supplied), or runs a shell command in the base
directory, or reports a usage error.  The shell itself is external and is
passed in as a function from command to outcome.  Display-only progress
messages and the `getRelativePath` decoration of the file-creation message
are not modelled (the message carries the full path instead). -/

structure ExecArgs where
  command : Option String
  content : Option String
  filePath : Option String
deriving DecidableEq, Repr

inductive ShellOutcome where
  /-- the command completed, producing captured stdout and stderr -/
  | completes (stdout stderr : String)
  /-- `exec` rejected (non-zero exit or spawn failure): the promise throws -/
  | throws (msg : String)
deriving DecidableEq, Repr

structure CmdResult where
  success : Bool
  message : String
deriving DecidableEq, Repr

/-- JavaScript truthiness of an optional string argument: present and
non-empty. -/
def truthy : Option String → Bool
  | none => false
  | some s => s ≠ ""

/-- JavaScript `String.includes`: substring containment. -/
def includesSubstr (s pat : String) : Bool := decide (pat.data <:+: s.data)

/-- `WebsiteBuilder.executeCommand`: file-creation branch, command branch
with the stderr heuristic, and the no-argument error; thrown errors are
caught and returned as failure results. -/
def executeCommand (fs : List (String × String)) (shell : String → ShellOutcome)
    (args : ExecArgs) : List (String × String) × CmdResult :=
  if truthy args.content && truthy args.filePath then
    let fp := args.filePath.getD ""
    (setFile fs fp (args.content.getD ""),
     ⟨true, "Success: File created at " ++ fp⟩)
  else if truthy args.command then
    match shell (args.command.getD "") with
    | .throws msg => (fs, ⟨false, "Error: " ++ msg⟩)
    | .completes stdout stderr =>
      if stderr ≠ "" && !(includesSubstr stderr "already exists") then
        (fs, ⟨false, "Error: " ++ stderr⟩)
      else
        (fs, ⟨true, "Success: " ++
          (if stdout = "" then "Command executed successfully" else stdout)⟩)
  else
    (fs, ⟨false, "Error: No command or content provided"⟩)

/-! ## File-tree scanner: CodeReviewer.listFiles

A directory tree is a list of named entries.  `scanDir` is the inner
`scan` closure: for each entry it forms `path.join(dir, item)`, skips the
entry when the full path contains one of the deny substrings, recurses
into directories and collects files whose extension is allow-listed.
Unreadable directories (the try/catch) are not modelled; the claims under
verification do not involve them. -/

inductive FSEntry where
  | file (name : String)
  | dir (name : String) (entries : List FSEntry)
deriving Repr

def FSEntry.name : FSEntry → String
  | .file n => n
  | .dir n _ => n

def joinPath (dir item : String) : String := dir ++ "/" ++ item

def denyList : List String := ["node_modules", "dist", "build", "out", ".git"]

def allowedExtensions : List String := [".js", ".jsx", ".ts", ".tsx", ".html", ".css"]

/-- Does the full path contain any deny-listed substring
(`fullPath.includes(...)` chain in the source)? -/
def hasDenied (p : String) : Bool := denyList.any (fun d => includesSubstr p d)

/-- Suffix of the character list starting at its last dot, if any. -/
def lastDotSuffix : List Char → Option (List Char)
  | [] => none
  | c :: cs =>
    match lastDotSuffix cs with
    | some e => some e
    | none => if c = '.' then some (c :: cs) else none

/-- `path.extname`: the substring from the last dot of the name; empty when
there is no dot or the only dot is the leading character. -/
def extname (s : String) : String :=
  match s.data with
  | [] => ""
  | _ :: cs =>
    match lastDotSuffix cs with
    | some e => String.mk e
    | none => ""

mutual

/-- The `scan` closure of `listFiles`, walking one directory's entries. -/
def scanDir (dirPath : String) : List FSEntry → List String
  | [] => []
  | e :: rest =>
    let fullPath := joinPath dirPath e.name
    if hasDenied fullPath then scanDir dirPath rest
    else scanEntry fullPath e ++ scanDir dirPath rest

/-- Process one non-denied entry at its full path. -/
def scanEntry (fullPath : String) : FSEntry → List String
  | .file n => if allowedExtensions.contains (extname n) then [fullPath] else []
  | .dir _ entries => scanDir fullPath entries

end

/-- `CodeReviewer.listFiles`: scan the directory's entries, returning
collected full paths in depth-first order. -/
def listFiles (directory : String) (entries : List FSEntry) : List String :=
  scanDir directory entries

/-! ## Agent loop: CodeReviewer.reviewCode / WebsiteBuilder.buildWebsite

Both task variants run the same round protocol: call the model with the
accumulated history; when the response carries function calls, process them
in order, appending a model tool-call turn and its tool-result turn to the
history for each known call and skipping unknown names; when it carries
plain text, record a completion and stop; when the call (or a handler
inside the round) throws, the round's catch records one error notification
and stops.  The model is external: a run is driven by a script of round
outcomes.  Handlers that can throw (such as `readFile` on a missing file)
are embedded as `Except`-returning functions. -/

inductive ToolResult where
  | files (paths : List String)
  | content (text : String)
  | success (ok : Bool)
deriving DecidableEq, Repr

inductive ToolCall where
  | list_files (directory : String)
  | read_file (file_path : String)
  | write_file (file_path : String) (content : String)
  | unknown (name : String)
deriving DecidableEq, Repr

def ToolCall.name : ToolCall → String
  | .list_files _ => "list_files"
  | .read_file _ => "read_file"
  | .write_file _ _ => "write_file"
  | .unknown n => n

/-- Is the call's name a key of the tool table (`name in tools`)? -/
def ToolCall.isKnown : ToolCall → Bool
  | .unknown _ => false
  | _ => true

inductive Turn where
  | userText (text : String)
  | modelToolCall (call : ToolCall)
  | toolResult (name : String) (result : ToolResult)
deriving DecidableEq, Repr

/-- One model response: `functionCalls` plus the `text` accessor.  The
source treats an empty `functionCalls` array the same as plain text. -/
structure ModelResponse where
  functionCalls : List ToolCall
  text : String
deriving DecidableEq, Repr

/-- Outcome of one `generateContent` call: a response, or a thrown
provider error. -/
inductive RoundOutcome where
  | ok (response : ModelResponse)
  | err (msg : String)
deriving DecidableEq, Repr

structure LoopState where
  /-- the `History` array sent to the model each round -/
  history : List Turn
  /-- trace of handler invocations, in the order they were started -/
  dispatches : List ToolCall
  /-- error notifications emitted by the catch branch (`sendError`) -/
  failures : List String
  /-- terminal summary texts (completion events) -/
  completions : List String
deriving DecidableEq, Repr

/-- The per-round `for (const functionCall of result.functionCalls)` body:
unknown names are logged and skipped; a known call is dispatched, and on
success the call/result pair is appended to the history; a handler throw
aborts the batch, returning the pending error for the round's catch. -/
def processCalls (tools : ToolCall → Except String ToolResult) :
    List ToolCall → LoopState → LoopState × Option String
  | [], st => (st, none)
  | c :: cs, st =>
    if c.isKnown then
      match tools c with
      | .ok r =>
        processCalls tools cs
          { st with
              history := st.history ++ [.modelToolCall c, .toolResult c.name r],
              dispatches := st.dispatches ++ [c] }
      | .error e => ({ st with dispatches := st.dispatches ++ [c] }, some e)
    else
      processCalls tools cs st

/-- The `while (true)` loop, driven by a script of round outcomes.  An
exhausted script leaves the run unfinished (the real loop would keep
calling the model). -/
def runLoop (tools : ToolCall → Except String ToolResult) :
    List RoundOutcome → LoopState → LoopState
  | [], st => st
  | .err e :: _, st => { st with failures := st.failures ++ [e] }
  | .ok resp :: rest, st =>
    if resp.functionCalls.isEmpty then
      { st with completions := st.completions ++ [resp.text] }
    else
      match processCalls tools resp.functionCalls st with
      | (st2, none) => runLoop tools rest st2
      | (st2, some e) => { st2 with failures := st2.failures ++ [e] }

/-- The seed history of `reviewCode`. -/
def initState (directoryPath : String) : LoopState :=
  ⟨[.userText ("Review and fix all JavaScript code in: " ++ directoryPath)],
   [], [], []⟩

/-- `CodeReviewer.reviewCode`: seed the history with the task turn and run
the round loop. -/
def reviewCode (tools : ToolCall → Except String ToolResult)
    (script : List RoundOutcome) (directoryPath : String) : LoopState :=
  runLoop tools script (initState directoryPath)

/-- The review-mode tool table built by `getTools`, over a directory map
(for `list_files`) and the on-disk contents (for reads).  `read_file`
throws on a missing file, mirroring the uncaught `readFileSync`; the
`unknown` row is unreachable because the loop skips unknown names before
dispatch. -/
def reviewTools (dirs : String → List FSEntry) (fs : List (String × String)) :
    ToolCall → Except String ToolResult
  | .list_files d => .ok (.files (listFiles d (dirs d)))
  | .read_file p =>
    match lookupFS fs p with
    | some c => .ok (.content c)
    | none => .error ("ENOENT: no such file or directory, open " ++ p)
  | .write_file p c => .ok (.success (writeFile fs p c).success)
  | .unknown n => .error ("not a tool: " ++ n)

/-- The pairing discipline of the history: every tool-result turn
immediately follows a model tool-call turn with the matching name. -/
def resultsPaired : List Turn → Bool
  | [] => true
  | .toolResult _ _ :: _ => false
  | .modelToolCall c :: .toolResult n _ :: rest => n == c.name && resultsPaired rest
  | _ :: rest => resultsPaired rest

/-! ## Claim theorems -/

/-- C6: `generateDiff` computes exactly the positional walk of the spec:
split both texts on line boundaries and walk the indices, recording a
surplus old line as removed, a surplus new line as added, a differing pair
in both lists and an equal pair not at all; in particular
`generateDiff x x = ([], [])` for every text `x`. -/
theorem generateDiff_positional_walk (oldContent newContent : String) :
    generateDiff oldContent newContent
      = diffSpec (oldContent.splitOn "\n") (newContent.splitOn "\n")
    ∧ ∀ x : String, generateDiff x x = ([], []) := by
  constructor
  · unfold generateDiff
    simpa using foldl_diffStep (oldContent.splitOn "\n") (newContent.splitOn "\n") [] []
  · intro x
    unfold generateDiff
    simpa [diffSpec_self] using foldl_diffStep (x.splitOn "\n") (x.splitOn "\n") [] []

/-- C1: review-mode `writeFile` with proposed content differing from the
current on-disk content (empty string when the file is missing) creates
exactly one staged suggestion whose `diff` is `generateDiff` of the
original and proposed contents, leaves the disk untouched, and returns
success. -/
theorem writeFile_review_stages_one_edit (fs : List (String × String))
    (filePath content : String)
    (h : (lookupFS fs filePath).getD "" ≠ content) :
    writeFile fs filePath content
      = ⟨fs, true,
          [⟨filePath, basename filePath, (lookupFS fs filePath).getD "", content,
            generateDiff ((lookupFS fs filePath).getD "") content⟩]⟩ := by
  simp [writeFile, h]

/-- Witness for C1 at a missing file and non-empty proposed content. -/
theorem writeFile_review_stages_one_edit_witness :
    ((lookupFS [] "a.js").getD "" ≠ "x")
    ∧ writeFile [] "a.js" "x"
      = ⟨[], true,
          [⟨"a.js", basename "a.js", (lookupFS [] "a.js").getD "", "x",
            generateDiff ((lookupFS [] "a.js").getD "") "x"⟩]⟩ :=
  ⟨by decide, writeFile_review_stages_one_edit [] "a.js" "x" (by decide)⟩

/-- C5: review-mode `writeFile` whose proposed content equals the current
on-disk content returns success, stages no suggestion, and performs no
disk write. -/
theorem writeFile_review_noop (fs : List (String × String))
    (filePath content : String)
    (h : lookupFS fs filePath = some content) :
    writeFile fs filePath content = ⟨fs, true, []⟩ := by
  simp [writeFile, h]

/-- Witness for C5 at a file whose content already matches. -/
theorem writeFile_review_noop_witness :
    lookupFS [("a.js", "x")] "a.js" = some "x"
    ∧ writeFile [("a.js", "x")] "a.js" "x" = ⟨[("a.js", "x")], true, []⟩ :=
  ⟨by decide, writeFile_review_noop [("a.js", "x")] "a.js" "x" (by decide)⟩

/-- C7: resolving a staged suggestion with "apply" writes its suggested
content verbatim to its target path and retires the pending record (the
pending list shrinks by one); resolving with "discard" leaves the disk
untouched and also retires the record. -/
theorem resolve_suggestion (st : PanelState) (s : Suggestion)
    (h : s ∈ st.pending) :
    lookupFS (applySuggestion st s).fs s.filePath = some s.suggestedContent
    ∧ (applySuggestion st s).pending.length + 1 = st.pending.length
    ∧ (dismissSuggestion st s).fs = st.fs
    ∧ (dismissSuggestion st s).pending.length + 1 = st.pending.length := by
  have hlen := List.length_erase_of_mem h
  have hpos : 0 < st.pending.length := List.length_pos.mpr (List.ne_nil_of_mem h)
  refine ⟨lookupFS_setFile_self _ _ _, ?_, rfl, ?_⟩ <;>
    simp [applySuggestion, dismissSuggestion, hlen] <;> omega

/-- Witness for C7 at a panel holding one staged suggestion. -/
theorem resolve_suggestion_witness :
    (⟨"a.js", "a.js", "", "x", ([""], ["x"])⟩ : Suggestion)
        ∈ (⟨[], [⟨"a.js", "a.js", "", "x", ([""], ["x"])⟩]⟩ : PanelState).pending
    ∧ (lookupFS (applySuggestion ⟨[], [⟨"a.js", "a.js", "", "x", ([""], ["x"])⟩]⟩
          ⟨"a.js", "a.js", "", "x", ([""], ["x"])⟩).fs "a.js" = some "x"
       ∧ (applySuggestion ⟨[], [⟨"a.js", "a.js", "", "x", ([""], ["x"])⟩]⟩
            ⟨"a.js", "a.js", "", "x", ([""], ["x"])⟩).pending.length + 1
          = (⟨[], [⟨"a.js", "a.js", "", "x", ([""], ["x"])⟩]⟩ : PanelState).pending.length
       ∧ (dismissSuggestion ⟨[], [⟨"a.js", "a.js", "", "x", ([""], ["x"])⟩]⟩
            ⟨"a.js", "a.js", "", "x", ([""], ["x"])⟩).fs
          = (⟨[], [⟨"a.js", "a.js", "", "x", ([""], ["x"])⟩]⟩ : PanelState).fs
       ∧ (dismissSuggestion ⟨[], [⟨"a.js", "a.js", "", "x", ([""], ["x"])⟩]⟩
            ⟨"a.js", "a.js", "", "x", ([""], ["x"])⟩).pending.length + 1
          = (⟨[], [⟨"a.js", "a.js", "", "x", ([""], ["x"])⟩]⟩ : PanelState).pending.length) :=
  ⟨by decide,
   resolve_suggestion ⟨[], [⟨"a.js", "a.js", "", "x", ([""], ["x"])⟩]⟩
     ⟨"a.js", "a.js", "", "x", ([""], ["x"])⟩ (by decide)⟩

/-- C9: for a shell command that the build-mode tool actually executes and
that completes without throwing, the result is a failure exactly when
stderr is non-empty and does not contain "already exists"; otherwise it is
a success whose message carries stdout (with the fixed placeholder when
stdout is empty). -/
theorem executeCommand_stderr_heuristic (fs : List (String × String))
    (shell : String → ShellOutcome) (cmd stdout stderr : String)
    (hc : cmd ≠ "") (hs : shell cmd = .completes stdout stderr) :
    ((executeCommand fs shell ⟨some cmd, none, none⟩).2.success = false
        ↔ stderr ≠ "" ∧ includesSubstr stderr "already exists" = false)
    ∧ ((executeCommand fs shell ⟨some cmd, none, none⟩).2.success = true
        → (executeCommand fs shell ⟨some cmd, none, none⟩).2.message
            = "Success: "
              ++ (if stdout = "" then "Command executed successfully" else stdout)) := by
  by_cases h1 : stderr = ""
  · simp [executeCommand, truthy, hc, hs, h1]
  · by_cases h2 : includesSubstr stderr "already exists" = true
    · simp [executeCommand, truthy, hc, hs, h1, h2]
    · simp only [Bool.not_eq_true] at h2
      simp [executeCommand, truthy, hc, hs, h1, h2]

/-- Witness for C9 at a command whose stderr is the benign
"already exists" notice and whose stdout is empty. -/
theorem executeCommand_stderr_heuristic_witness :
    ("mkdir x" ≠ "")
    ∧ ((fun _ : String => ShellOutcome.completes "" "dir already exists") "mkdir x"
        = .completes "" "dir already exists")
    ∧ (((executeCommand [] (fun _ => .completes "" "dir already exists")
          ⟨some "mkdir x", none, none⟩).2.success = false
        ↔ "dir already exists" ≠ ""
          ∧ includesSubstr "dir already exists" "already exists" = false)
       ∧ ((executeCommand [] (fun _ => .completes "" "dir already exists")
            ⟨some "mkdir x", none, none⟩).2.success = true
          → (executeCommand [] (fun _ => .completes "" "dir already exists")
              ⟨some "mkdir x", none, none⟩).2.message
            = "Success: "
              ++ (if ("" : String) = "" then "Command executed successfully" else ""))) :=
  ⟨by decide, rfl,
   executeCommand_stderr_heuristic [] (fun _ => .completes "" "dir already exists")
     "mkdir x" "" "dir already exists" (by decide) rfl⟩

/-- Every path emitted by the scanner passed the deny check at its own
level, so no emitted path contains a deny-listed substring. -/
lemma scanDir_not_denied :
    ∀ (dirPath : String) (entries : List FSEntry) (p : String),
      p ∈ scanDir dirPath entries → hasDenied p = false
  | _, [], _, h => by simp [scanDir] at h
  | dirPath, e :: rest, p, h => by
    rw [scanDir] at h
    by_cases hd : hasDenied (joinPath dirPath e.name) = true
    · rw [if_pos hd] at h
      exact scanDir_not_denied dirPath rest p h
    · rw [if_neg hd] at h
      rcases List.mem_append.mp h with h1 | h2
      · cases e with
        | file n =>
          rw [scanEntry] at h1
          by_cases ha : allowedExtensions.contains (extname n) = true
          · rw [if_pos ha] at h1
            simp at h1
            subst h1
            simpa using hd
          · rw [if_neg ha] at h1
            simp at h1
        | dir n entries =>
          rw [scanEntry] at h1
          exact scanDir_not_denied (joinPath dirPath (FSEntry.dir n entries).name) entries p h1
      · exact scanDir_not_denied dirPath rest p h2

/-- C10: `listFiles` matches the deny list by substring over the whole
path, a file's own name included: no returned path contains any of the
deny substrings, and allow-listed files named "layout.css" and
"about.html" directly under the scanned root are omitted because their
names contain "out". -/
theorem listFiles_denies_by_substring :
    (∀ (directory : String) (entries : List FSEntry) (p : String),
        p ∈ listFiles directory entries → hasDenied p = false)
    ∧ listFiles "/project" [.file "layout.css", .file "about.html"] = [] := by
  constructor
  · intro directory entries p h
    exact scanDir_not_denied directory entries p h
  · decide

/-- Witness for C10: a path the scanner does return never contains a
denied substring. -/
theorem listFiles_denies_by_substring_witness :
    "/project/app.ts" ∈ listFiles "/project" [.file "app.ts"]
    ∧ hasDenied "/project/app.ts" = false :=
  ⟨by decide,
   listFiles_denies_by_substring.1 "/project" [.file "app.ts"] "/project/app.ts"
     (by decide)⟩

/-- C4: a run whose first inference call throws a provider error records
exactly one failure notification, performs zero tool dispatches, appends
nothing to the history, and stops without retrying — the remaining script
is never consulted. -/
theorem first_inference_error_stops (tools : ToolCall → Except String ToolResult)
    (e : String) (rest : List RoundOutcome) (directoryPath : String) :
    reviewCode tools (.err e :: rest) directoryPath
      = ⟨[.userText ("Review and fix all JavaScript code in: " ++ directoryPath)],
         [], [e], []⟩ := rfl

/-- C3 counterexample: a round carrying the unknown call "foo" (followed
by a known read) ends with a history that contains no tool-result at all
for "foo" — no soft failure object `{success:false, message:"unknown
tool"}` is produced or fed back; the unknown name is skipped with only a
log line (the loop does continue, completing on the next round). -/
theorem unknown_tool_no_result_counterexample :
    reviewCode (reviewTools (fun _ => []) [("/a.js", "x")])
        [.ok ⟨[.unknown "foo", .read_file "/a.js"], ""⟩, .ok ⟨[], "done"⟩] "/p"
      = ⟨[.userText "Review and fix all JavaScript code in: /p",
          .modelToolCall (.read_file "/a.js"),
          .toolResult "read_file" (.content "x")],
         [.read_file "/a.js"], [], ["done"]⟩ := by decide

/-- C3 amended: an unknown tool name is skipped at dispatch: no result
object is produced and nothing is appended to the history for it, and the
loop continues with the remaining calls and rounds — it is never fatal. -/
theorem unknown_tool_skipped (tools : ToolCall → Except String ToolResult)
    (n : String) (cs : List ToolCall) (st : LoopState)
    (rest : List RoundOutcome) (t : String) :
    processCalls tools (.unknown n :: cs) st = processCalls tools cs st
    ∧ runLoop tools (.ok ⟨[.unknown n], t⟩ :: rest) st = runLoop tools rest st := by
  constructor
  · simp [processCalls, ToolCall.isKnown]
  · simp [runLoop, processCalls, ToolCall.isKnown]

/-- C2 counterexample: a handler error (reading a missing file) is not
converted into a tool-result turn — the history stays at the seed turn —
and the loop does not continue: the second round, which would have
completed with "done", is never reached; instead the task stops with one
failure notification. -/
theorem handler_error_counterexample :
    reviewCode (reviewTools (fun _ => []) [])
        [.ok ⟨[.read_file "/missing.js"], ""⟩, .ok ⟨[], "done"⟩] "/p"
      = ⟨[.userText "Review and fix all JavaScript code in: /p"],
         [.read_file "/missing.js"],
         ["ENOENT: no such file or directory, open /missing.js"], []⟩ := by decide

/-- C2 amended: an error thrown by a tool handler during dispatch escapes
to the per-round catch: the loop records exactly one error notification
and stops the task; no structured failure result is appended to the
history for the failing call, the batch's remaining calls are not
dispatched, and later rounds are not executed. -/
theorem handler_error_aborts_loop (tools : ToolCall → Except String ToolResult)
    (c : ToolCall) (cs : List ToolCall) (e t : String)
    (rest : List RoundOutcome) (st : LoopState)
    (hk : c.isKnown = true) (he : tools c = .error e) :
    runLoop tools (.ok ⟨c :: cs, t⟩ :: rest) st
      = { st with dispatches := st.dispatches ++ [c],
                  failures := st.failures ++ [e] } := by
  simp [runLoop, processCalls, hk, he]

/-- Witness for the amended C2 at a concrete missing-file read. -/
theorem handler_error_aborts_loop_witness :
    (ToolCall.read_file "/m.js").isKnown = true
    ∧ reviewTools (fun _ => []) [] (.read_file "/m.js")
        = .error "ENOENT: no such file or directory, open /m.js"
    ∧ runLoop (reviewTools (fun _ => []) [])
        [.ok ⟨[.read_file "/m.js"], ""⟩] (initState "/p")
      = { initState "/p" with
            dispatches := (initState "/p").dispatches ++ [.read_file "/m.js"],
            failures := (initState "/p").failures
              ++ ["ENOENT: no such file or directory, open /m.js"] } :=
  ⟨rfl, rfl,
   handler_error_aborts_loop (reviewTools (fun _ => []) []) (.read_file "/m.js") [] _ "" []
     (initState "/p") rfl rfl⟩

/-- A history obeying the pairing discipline still obeys it after
appending another such history. -/
lemma resultsPaired_append :
    ∀ (h t : List Turn), resultsPaired h = true → resultsPaired t = true →
      resultsPaired (h ++ t) = true
  | [], t, _, ht => by simpa using ht
  | .toolResult n r :: rest, t, hh, _ => by simp [resultsPaired] at hh
  | .userText s :: rest, t, hh, ht => by
    have hh' : resultsPaired rest = true := by simpa [resultsPaired] using hh
    simpa [resultsPaired] using resultsPaired_append rest t hh' ht
  | .modelToolCall c :: [], t, _, ht => by
    cases t with
    | nil => simp [resultsPaired]
    | cons u t' =>
      cases u with
      | userText s => simpa [resultsPaired] using ht
      | modelToolCall d => simpa [resultsPaired] using ht
      | toolResult n r => simp [resultsPaired] at ht
  | .modelToolCall c :: .toolResult n r :: rest, t, hh, ht => by
    have hh1 : (n == c.name) = true ∧ resultsPaired rest = true := by
      simpa [resultsPaired, Bool.and_eq_true] using hh
    have hrec := resultsPaired_append rest t hh1.2 ht
    simp [resultsPaired, hh1.1, hrec]
  | .modelToolCall c :: .userText s :: rest, t, hh, ht => by
    have hh' : resultsPaired (.userText s :: rest) = true := by
      simpa [resultsPaired] using hh
    simpa [resultsPaired] using resultsPaired_append (.userText s :: rest) t hh' ht
  | .modelToolCall c :: .modelToolCall d :: rest, t, hh, ht => by
    have hh' : resultsPaired (.modelToolCall d :: rest) = true := by
      simpa [resultsPaired] using hh
    simpa [resultsPaired] using resultsPaired_append (.modelToolCall d :: rest) t hh' ht

/-- Processing a batch of calls only appends to the history. -/
lemma processCalls_history_grows (tools : ToolCall → Except String ToolResult)
    (cs : List ToolCall) :
    ∀ st : LoopState,
      List.IsPrefix st.history (processCalls tools cs st).1.history := by
  induction cs with
  | nil => intro st; exact List.prefix_refl _
  | cons c cs ih =>
    intro st
    by_cases hk : c.isKnown = true
    · cases htc : tools c with
      | ok r =>
        rw [processCalls, if_pos hk, htc]
        have hstep : List.IsPrefix st.history
            (st.history ++ [Turn.modelToolCall c, Turn.toolResult c.name r]) :=
          List.prefix_append _ _
        have hrest : List.IsPrefix
            (st.history ++ [Turn.modelToolCall c, Turn.toolResult c.name r])
            ((processCalls tools cs
              { st with
                  history := st.history
                    ++ [Turn.modelToolCall c, Turn.toolResult c.name r],
                  dispatches := st.dispatches ++ [c] }).1.history) :=
          ih { st with
                 history := st.history
                   ++ [Turn.modelToolCall c, Turn.toolResult c.name r],
                 dispatches := st.dispatches ++ [c] }
        exact hstep.trans hrest
      | error e =>
        rw [processCalls, if_pos hk, htc]
    · rw [processCalls, if_neg hk]
      exact ih st

/-- Across rounds the history is append-only: the state's history is a
prefix of the final history. -/
lemma runLoop_history_grows (tools : ToolCall → Except String ToolResult)
    (script : List RoundOutcome) :
    ∀ st : LoopState,
      List.IsPrefix st.history (runLoop tools script st).history := by
  induction script with
  | nil => intro st; exact List.prefix_refl _
  | cons ro rest ih =>
    intro st
    cases ro with
    | err e => rw [runLoop]
    | ok resp =>
      by_cases hy : resp.functionCalls.isEmpty = true
      · rw [runLoop, if_pos hy]
      · rw [runLoop, if_neg hy]
        have h1 := processCalls_history_grows tools resp.functionCalls st
        cases hp : processCalls tools resp.functionCalls st with
        | mk st2 opt =>
          rw [hp] at h1
          cases opt with
          | none => exact h1.trans (ih st2)
          | some e => exact h1

/-- Processing a batch preserves the pairing discipline: each appended
tool-result turn immediately follows its own tool-call turn. -/
lemma processCalls_paired (tools : ToolCall → Except String ToolResult)
    (cs : List ToolCall) :
    ∀ st : LoopState, resultsPaired st.history = true →
      resultsPaired (processCalls tools cs st).1.history = true := by
  induction cs with
  | nil => intro st h; exact h
  | cons c cs ih =>
    intro st h
    by_cases hk : c.isKnown = true
    · cases htc : tools c with
      | ok r =>
        rw [processCalls, if_pos hk, htc]
        refine ih _ (resultsPaired_append _ _ h ?_)
        simp [resultsPaired]
      | error e =>
        rw [processCalls, if_pos hk, htc]
        exact h
    · rw [processCalls, if_neg hk]
      exact ih st h

/-- The whole loop preserves the pairing discipline of the history. -/
lemma runLoop_paired (tools : ToolCall → Except String ToolResult)
    (script : List RoundOutcome) :
    ∀ st : LoopState, resultsPaired st.history = true →
      resultsPaired (runLoop tools script st).history = true := by
  induction script with
  | nil => intro st h; exact h
  | cons ro rest ih =>
    intro st h
    cases ro with
    | err e => rw [runLoop]; exact h
    | ok resp =>
      by_cases hy : resp.functionCalls.isEmpty = true
      · rw [runLoop, if_pos hy]; exact h
      · rw [runLoop, if_neg hy]
        have h1 := processCalls_paired tools resp.functionCalls st h
        cases hp : processCalls tools resp.functionCalls st with
        | mk st2 opt =>
          rw [hp] at h1
          cases opt with
          | none => exact ih st2 h1
          | some e => exact h1

/-- When every known call of a batch has a non-throwing handler, the batch
is dispatched one call at a time in exactly the order the model returned,
unknown names skipped. -/
lemma processCalls_dispatch_order (tools : ToolCall → Except String ToolResult)
    (cs : List ToolCall) :
    ∀ st : LoopState,
      (∀ c ∈ cs, c.isKnown = true → ∃ r, tools c = .ok r) →
      (processCalls tools cs st).1.dispatches
        = st.dispatches ++ cs.filter (fun c => c.isKnown) := by
  induction cs with
  | nil => intro st _; simp [processCalls]
  | cons c cs ih =>
    intro st h
    by_cases hk : c.isKnown = true
    · obtain ⟨r, hr⟩ := h c (List.mem_cons_self c cs) hk
      rw [processCalls, if_pos hk, hr,
        ih _ (fun d hd hdk => h d (List.mem_cons_of_mem c hd) hdk)]
      simp [List.filter_cons, hk]
    · rw [processCalls, if_neg hk,
        ih st (fun d hd hdk => h d (List.mem_cons_of_mem c hd) hdk)]
      simp only [Bool.not_eq_true] at hk
      simp [List.filter_cons, hk]

/-- C8: every reachable history is append-only (the state's history is a
prefix of the run's final history), the pairing discipline holds in the
final history (each tool-result turn immediately follows its matching
tool-call turn) given it held at the start, and a batch whose known calls
all succeed is dispatched sequentially in exactly the order the model
returned it, each call's result appended before the next dispatch. -/
theorem history_protocol (tools : ToolCall → Except String ToolResult)
    (script : List RoundOutcome) (st : LoopState) (cs : List ToolCall)
    (hwf : resultsPaired st.history = true)
    (hok : ∀ c ∈ cs, c.isKnown = true → ∃ r, tools c = .ok r) :
    List.IsPrefix st.history (runLoop tools script st).history
    ∧ resultsPaired (runLoop tools script st).history = true
    ∧ (processCalls tools cs st).1.dispatches
        = st.dispatches ++ cs.filter (fun c => c.isKnown) :=
  ⟨runLoop_history_grows tools script st,
   runLoop_paired tools script st hwf,
   processCalls_dispatch_order tools cs st hok⟩

/-- Witness for C8 at a concrete one-read review run. -/
theorem history_protocol_witness :
    resultsPaired (initState "/p").history = true
    ∧ (∀ c ∈ [ToolCall.read_file "/a.js"], c.isKnown = true →
        ∃ r, reviewTools (fun _ => []) [("/a.js", "x")] c = .ok r)
    ∧ (List.IsPrefix (initState "/p").history
        (runLoop (reviewTools (fun _ => []) [("/a.js", "x")])
          [.ok ⟨[.read_file "/a.js"], ""⟩, .ok ⟨[], "done"⟩] (initState "/p")).history
      ∧ resultsPaired
          (runLoop (reviewTools (fun _ => []) [("/a.js", "x")])
            [.ok ⟨[.read_file "/a.js"], ""⟩, .ok ⟨[], "done"⟩] (initState "/p")).history
          = true
      ∧ (processCalls (reviewTools (fun _ => []) [("/a.js", "x")])
            [ToolCall.read_file "/a.js"] (initState "/p")).1.dispatches
          = (initState "/p").dispatches
            ++ [ToolCall.read_file "/a.js"].filter (fun c => c.isKnown)) := by
  have hok : ∀ c ∈ [ToolCall.read_file "/a.js"], c.isKnown = true →
      ∃ r, reviewTools (fun _ => []) [("/a.js", "x")] c = .ok r := by
    intro c hc _
    simp only [List.mem_singleton] at hc
    subst hc
    exact ⟨.content "x", rfl⟩
  exact ⟨by decide, hok, history_protocol _ _ _ _ (by decide) hok⟩

end StrikeGirl
